import Mathlib

/-!
# Verification of the circular curve calculator (`src/curve_webapp.py`)

Shallow embedding of the computational pipeline of the single-file
Streamlit app `curve_webapp.py`:

* station parsing/formatting (`station_to_ft`, `ft_to_station`) is embedded
  over exact decimal arithmetic (`ℚ`) with the character-level string
  processing of the source (Python `str.replace('+','')` removes every `'+'`,
  and `float(...)` parses a decimal/float literal);
* the numeric pipeline (curve elements, stake-station generation, deflection
  angles, chord tables, plan coordinates and the P.I. coordinate) is embedded
  over `ℝ`, reading the source's IEEE-754 arithmetic as real arithmetic;
* fallible operations (`float(...)` raising `ValueError`, division by zero
  raising `ZeroDivisionError`) return `Option`/`Except` values.

The sexagesimal display helper `deg_to_dms_nearest_sec` and the
matplotlib/streamlit rendering are presentation-only and are not modelled;
no claim refers to them.
-/

open Real

namespace CurveApp

/-! ## Curve element calculator (source lines 42-48)

`math.radians(d)` is `d·π/180`.  The module-level code computes, under the
guard `Da_deg > 0 and I_deg > 0`:
`R = 18000.0 / (math.pi * Da_deg)`, `T = R * math.tan(math.radians(I_deg/2))`,
`L = 100.0 * I_deg / Da_deg`, `PC_station = PI_ft - T`,
`PT_station = PC_station + L`. -/

noncomputable def radiansOf (d : ℝ) : ℝ := d * π / 180

noncomputable def R_val (Da : ℝ) : ℝ := 18000 / (π * Da)

noncomputable def T_val (I Da : ℝ) : ℝ := R_val Da * Real.tan (radiansOf (I / 2))

noncomputable def L_val (I Da : ℝ) : ℝ := 100 * I / Da

noncomputable def PC_station (I Da PIft : ℝ) : ℝ := PIft - T_val I Da

noncomputable def PT_station (I Da PIft : ℝ) : ℝ := PC_station I Da PIft + L_val I Da

/-- C1: the curve element calculator returns exactly the five formulas of the
source, and consequently `PT − PC = L` holds exactly, in particular within
the floating-point tolerance `1e-9`. -/
theorem curve_elements_exact (I Da PIft : ℝ) (hI : 0 < I) (hDa : 0 < Da) :
    R_val Da = 18000 / (π * Da) ∧
    T_val I Da = R_val Da * Real.tan (radiansOf (I / 2)) ∧
    L_val I Da = 100 * I / Da ∧
    PC_station I Da PIft = PIft - T_val I Da ∧
    PT_station I Da PIft = PC_station I Da PIft + L_val I Da ∧
    PT_station I Da PIft - PC_station I Da PIft = L_val I Da ∧
    |PT_station I Da PIft - PC_station I Da PIft - L_val I Da| ≤ 1e-9 := by
  refine ⟨rfl, rfl, rfl, rfl, rfl, ?_, ?_⟩
  · simp [PT_station]
  · simp only [PT_station, add_sub_cancel_left, sub_self, abs_zero]
    norm_num

/-- Witness for `curve_elements_exact` at the app's default inputs
`I = 40`, `Da = 8`, `PI = 1000 ft`. -/
theorem curve_elements_exact_witness :
    PT_station 40 8 1000 - PC_station 40 8 1000 = L_val 40 8 :=
  (curve_elements_exact 40 8 1000 (by norm_num) (by norm_num)).2.2.2.2.2.1

/-! ## Stake station generation (source lines 51-57)

```
stations = [PC_station]
first_full_50 = math.ceil((PC_station + stake_step) / stake_step) * stake_step
s = first_full_50
while s < PT_station - 1e-6:
    stations.append(s)
    s += stake_step
stations.append(PT_station)
```
The slider guarantees `stake_step ∈ {25, 50, 75, 100}`, so the loop is
modelled for a positive step (the proof of positivity is a parameter; the
Python loop would not terminate otherwise). -/

noncomputable def first_full (PC step : ℝ) : ℝ := (⌈(PC + step) / step⌉ : ℤ) * step

open scoped Classical in
/-- The `while s < PT_station - 1e-6` loop body, collecting appended values. -/
noncomputable def stakeLoop (PT step : ℝ) (hstep : 0 < step) (s : ℝ) : List ℝ :=
  if h : s < PT - 1e-6 then s :: stakeLoop PT step hstep (s + step) else []
termination_by (⌈(PT - 1e-6 - s) / step⌉).toNat
decreasing_by
  have hx : (PT - 1e-6 - (s + step)) / step = (PT - 1e-6 - s) / step - 1 := by
    field_simp
    ring
  have h1 : (0 : ℤ) < ⌈(PT - 1e-6 - s) / step⌉ :=
    Int.ceil_pos.mpr (div_pos (by linarith) hstep)
  rw [hx, Int.ceil_sub_one]
  omega

noncomputable def stations (PC PT step : ℝ) (hstep : 0 < step) : List ℝ :=
  PC :: (stakeLoop PT step hstep (first_full PC step) ++ [PT])

/-- Closed form of the loop: it emits `s, s+step, s+2·step, …` for as long as
the value stays below `PT - 1e-6`; the number of iterations is
`⌈(PT - 1e-6 - s)/step⌉⁺`. -/
theorem stakeLoop_eq_range (PT step : ℝ) (hstep : 0 < step) (s : ℝ) :
    stakeLoop PT step hstep s =
      (List.range (⌈(PT - 1e-6 - s) / step⌉.toNat)).map (fun k : ℕ => s + (k : ℝ) * step) := by
  generalize hn : (⌈(PT - 1e-6 - s) / step⌉).toNat = n
  induction n generalizing s with
  | zero =>
    rw [stakeLoop]
    have hle : (PT - 1e-6 - s) / step ≤ 0 := by
      have := Int.le_ceil ((PT - 1e-6 - s) / step)
      have hc : (⌈(PT - 1e-6 - s) / step⌉ : ℤ) ≤ 0 := by omega
      calc (PT - 1e-6 - s) / step ≤ (⌈(PT - 1e-6 - s) / step⌉ : ℝ) := this
        _ ≤ 0 := by exact_mod_cast hc
    have : ¬ s < PT - 1e-6 := by
      intro hlt
      exact absurd (div_pos (by linarith) hstep) (not_lt.mpr hle)
    simp [this]
  | succ n ih =>
    have hceil : ⌈(PT - 1e-6 - s) / step⌉ = (n : ℤ) + 1 := by omega
    have hpos : (0 : ℝ) < (PT - 1e-6 - s) / step := by
      have : (0 : ℤ) < ⌈(PT - 1e-6 - s) / step⌉ := by omega
      exact Int.ceil_pos.mp this
    have hlt : s < PT - 1e-6 := by
      by_contra hge
      have : (PT - 1e-6 - s) / step ≤ 0 :=
        div_nonpos_of_nonpos_of_nonneg (by linarith) hstep.le
      linarith
    rw [stakeLoop, dif_pos hlt]
    have hstepceil : (⌈(PT - 1e-6 - (s + step)) / step⌉).toNat = n := by
      have hx : (PT - 1e-6 - (s + step)) / step = (PT - 1e-6 - s) / step - 1 := by
        field_simp
        ring
      rw [hx, Int.ceil_sub_one, hceil]
      omega
    rw [ih (s + step) hstepceil, List.range_succ_eq_map, List.map_cons, List.map_map]
    have hfun : ((fun k : ℕ => s + (k : ℝ) * step) ∘ Nat.succ) =
        fun k : ℕ => (s + step) + (k : ℝ) * step := by
      funext k
      simp [Function.comp]
      push_cast
      ring
    simp [hfun]

/-- The number of intermediate stakes the loop emits. -/
noncomputable def nInter (PC PT step : ℝ) : ℕ :=
  (⌈(PT - 1e-6 - first_full PC step) / step⌉).toNat

/-- Structure of the station list: `PC`, then the arithmetic progression of
intermediates, then `PT`. -/
theorem stations_structure (PC PT step : ℝ) (hstep : 0 < step) :
    stations PC PT step hstep =
      PC :: ((List.range (nInter PC PT step)).map
        (fun k : ℕ => first_full PC step + (k : ℝ) * step) ++ [PT]) := by
  unfold stations nInter
  rw [stakeLoop_eq_range]

/-- C2: the stake list begins with `PC`; its intermediates form the
progression `first, first + step, …` with
`first = ⌈(PC + step)/step⌉·step`; an intermediate with index `k` is present
exactly when `first + k·step < PT − 1e-6`; `PT` is always the final element;
and when `PC` is exactly a multiple of the interval the first intermediate is
`PC + step` (the multiple at `PC` itself is skipped). -/
theorem stations_spec (I Da PIft step : ℝ) (hstep : 0 < step)
    (hI : 0 < I) (hDa : 0 < Da) :
    stations (PC_station I Da PIft) (PT_station I Da PIft) step hstep =
      PC_station I Da PIft ::
        ((List.range (nInter (PC_station I Da PIft) (PT_station I Da PIft) step)).map
          (fun k : ℕ => first_full (PC_station I Da PIft) step + (k : ℝ) * step) ++
          [PT_station I Da PIft]) ∧
    (∀ k : ℕ, k < nInter (PC_station I Da PIft) (PT_station I Da PIft) step ↔
      first_full (PC_station I Da PIft) step + k * step <
        PT_station I Da PIft - 1e-6) ∧
    (∀ m : ℤ, PC_station I Da PIft = m * step →
      first_full (PC_station I Da PIft) step = PC_station I Da PIft + step) := by
  refine ⟨stations_structure _ _ _ _, ?_, ?_⟩
  · intro k
    set PC := PC_station I Da PIft
    set PT := PT_station I Da PIft
    unfold nInter
    rw [Int.lt_toNat, Int.lt_ceil, lt_div_iff₀ hstep]
    constructor
    · intro h; push_cast at h ⊢; linarith
    · intro h; push_cast at h ⊢; linarith
  · intro m hm
    unfold first_full
    rw [hm]
    have : (m * step + step) / step = (m : ℝ) + 1 := by
      field_simp
      ring
    rw [this]
    have : ⌈(m : ℝ) + 1⌉ = m + 1 := by
      rw [show ((m : ℝ) + 1) = ((m + 1 : ℤ) : ℝ) by push_cast; ring, Int.ceil_intCast]
    rw [this]
    push_cast
    ring

/-- Witness for `stations_spec` at `I = 40`, `Da = 8`, `PI = 1000`,
interval 50. -/
theorem stations_spec_witness :
    stations (PC_station 40 8 1000) (PT_station 40 8 1000) 50 (by norm_num) =
      PC_station 40 8 1000 ::
        ((List.range (nInter (PC_station 40 8 1000) (PT_station 40 8 1000) 50)).map
          (fun k : ℕ => first_full (PC_station 40 8 1000) 50 + (k : ℝ) * 50) ++
          [PT_station 40 8 1000]) :=
  (stations_spec 40 8 1000 50 (by norm_num) (by norm_num) (by norm_num)).1

/-- Membership bound for the intermediates, for any `PC`, `PT`. -/
theorem nInter_lt_iff (PC PT step : ℝ) (hstep : 0 < step) (k : ℕ) :
    k < nInter PC PT step ↔ first_full PC step + k * step < PT - 1e-6 := by
  unfold nInter
  rw [Int.lt_toNat, Int.lt_ceil, lt_div_iff₀ hstep]
  constructor
  · intro h; push_cast at h ⊢; linarith
  · intro h; push_cast at h ⊢; linarith

/-- `first_full` lands at least one full interval beyond `PC`. -/
theorem first_full_ge (PC step : ℝ) (hstep : 0 < step) :
    PC + step ≤ first_full PC step := by
  unfold first_full
  have h := Int.le_ceil ((PC + step) / step)
  calc PC + step = ((PC + step) / step) * step := by field_simp
    _ ≤ (⌈(PC + step) / step⌉ : ℝ) * step :=
      mul_le_mul_of_nonneg_right h hstep.le

/-- The station list is sorted (weakly increasing; in fact strictly). -/
theorem stations_pairwise (PC PT step : ℝ) (hstep : 0 < step) (hPCPT : PC ≤ PT) :
    List.Pairwise (· ≤ ·) (stations PC PT step hstep) := by
  rw [stations_structure]
  have hff : PC ≤ first_full PC step := le_trans (by linarith) (first_full_ge PC step hstep)
  have hmem : ∀ k : ℕ, k < nInter PC PT step →
      first_full PC step + k * step ≤ PT := by
    intro k hk
    have := (nInter_lt_iff PC PT step hstep k).mp hk
    linarith
  refine List.pairwise_cons.mpr ⟨?_, ?_⟩
  · intro b hb
    rcases List.mem_append.mp hb with hb | hb
    · obtain ⟨k, _, rfl⟩ := List.mem_map.mp hb
      have : (0 : ℝ) ≤ k * step := mul_nonneg (Nat.cast_nonneg k) hstep.le
      linarith
    · rcases List.mem_singleton.mp hb with rfl
      exact hPCPT
  · refine List.pairwise_append.mpr ⟨?_, List.pairwise_singleton _ _, ?_⟩
    · rw [List.pairwise_map]
      refine (List.pairwise_lt_range _).imp ?_
      intro i j hij
      have : (i : ℝ) * step ≤ j * step := by
        have : (i : ℝ) ≤ j := by exact_mod_cast hij.le
        exact mul_le_mul_of_nonneg_right this hstep.le
      linarith
    · intro x hx y hy
      obtain ⟨k, hk, rfl⟩ := List.mem_map.mp hx
      rcases List.mem_singleton.mp hy with rfl
      exact hmem k (List.mem_range.mp hk)

/-- The station list always ends at `PT`. -/
theorem stations_getLast (PC PT step : ℝ) (hstep : 0 < step) :
    (stations PC PT step hstep).getLast? = some PT := by
  show (PC :: (stakeLoop PT step hstep (first_full PC step) ++ [PT])).getLast? = some PT
  rw [show PC :: (stakeLoop PT step hstep (first_full PC step) ++ [PT]) =
    (PC :: stakeLoop PT step hstep (first_full PC step)) ++ [PT] from rfl]
  exact List.getLast?_concat _

/-! ## Deflection angles (source lines 60-64)

```
deflection_deg = []
for stn in stations:
    arc_from_PC = stn - PC_station
    delta = Da_deg * arc_from_PC / 200.0
    deflection_deg.append(delta)
``` -/

noncomputable def deflection (Da PC stn : ℝ) : ℝ := Da * (stn - PC) / 200

noncomputable def deflection_deg (I Da PIft step : ℝ) (hstep : 0 < step) : List ℝ :=
  (stations (PC_station I Da PIft) (PT_station I Da PIft) step hstep).map
    (deflection Da (PC_station I Da PIft))

/-- C3: each deflection is `Da·(stn − PC)/200`; the deflection sequence is
non-decreasing; and its final element (at `PT`) equals `I/2` (in particular
within `1e-6` degrees). -/
theorem deflection_spec (I Da PIft step : ℝ) (hstep : 0 < step)
    (hI : 0 < I) (hDa : 0 < Da) :
    deflection_deg I Da PIft step hstep =
      (stations (PC_station I Da PIft) (PT_station I Da PIft) step hstep).map
        (fun stn => Da * (stn - PC_station I Da PIft) / 200) ∧
    List.Chain' (· ≤ ·) (deflection_deg I Da PIft step hstep) ∧
    ∃ d, (deflection_deg I Da PIft step hstep).getLast? = some d ∧
      d = I / 2 ∧ |d - I / 2| ≤ 1e-6 := by
  have hPCPT : PC_station I Da PIft ≤ PT_station I Da PIft := by
    have hL : 0 < L_val I Da := div_pos (by linarith) hDa
    unfold PT_station
    linarith
  refine ⟨rfl, ?_, ?_⟩
  · rw [List.chain'_iff_pairwise]
    unfold deflection_deg
    rw [List.pairwise_map]
    refine (stations_pairwise _ _ _ hstep hPCPT).imp ?_
    intro a b hab
    unfold deflection
    have := mul_le_mul_of_nonneg_left (sub_le_sub_right hab (PC_station I Da PIft)) hDa.le
    linarith
  · refine ⟨deflection Da (PC_station I Da PIft) (PT_station I Da PIft), ?_, ?_, ?_⟩
    · unfold deflection_deg
      rw [List.getLast?_map, stations_getLast]
      rfl
    · unfold deflection PT_station L_val
      field_simp
      ring
    · have : deflection Da (PC_station I Da PIft) (PT_station I Da PIft) = I / 2 := by
        unfold deflection PT_station L_val
        field_simp
        ring
      rw [this]
      simp
      norm_num

/-- Witness for `deflection_spec`: at the default inputs the deflection
sequence is non-decreasing. -/
theorem deflection_spec_witness :
    List.Chain' (· ≤ ·) (deflection_deg 40 8 1000 50 (by norm_num)) :=
  (deflection_spec 40 8 1000 50 (by norm_num) (by norm_num) (by norm_num)).2.1

/-! ## Plan coordinates and the P.I. coordinate (source lines 85-100)

```
for d in deflection_deg:
    angle_rad = math.radians(2*d)
    x = R * math.sin(angle_rad)
    y = -R * (1 - math.cos(angle_rad))   # curve to right
...
PT_x = x_points[-1]
PT_y = y_points[-1]
theta_PT_tan = math.radians(180 - I_deg)
m2 = math.tan(theta_PT_tan)
x_PI = PT_x - PT_y/m2
y_PI = 0
```
The two parallel lists `x_points`/`y_points` are modelled as one list of
pairs.  Python raises `ZeroDivisionError` on float division exactly when the
divisor is `0.0`, so `x_PI` is fallible; the exception classes that the
interpreter can raise here are modelled by `PyErr`.
`PyErr.degenerateGeometryError` is the error class named by the design
document's taxonomy; no statement of the source produces it. -/

inductive PyErr where
  | valueError
  | zeroDivisionError
  | degenerateGeometryError
  deriving DecidableEq

noncomputable def curve_points (I Da PIft step : ℝ) (hstep : 0 < step) : List (ℝ × ℝ) :=
  (deflection_deg I Da PIft step hstep).map
    (fun d => (R_val Da * Real.sin (radiansOf (2 * d)),
               -R_val Da * (1 - Real.cos (radiansOf (2 * d)))))

open scoped Classical in
noncomputable def PI_coord (I Da PIft step : ℝ) (hstep : 0 < step) :
    Except PyErr (ℝ × ℝ) :=
  let PTxy := (curve_points I Da PIft step hstep).getLast!
  let m2 := Real.tan (radiansOf (180 - I))
  if m2 = 0 then .error .zeroDivisionError else .ok (PTxy.1 - PTxy.2 / m2, 0)

/-- At `I = 180` the slope `m2 = tan(radians(180 − I))` is exactly `0`, so the
P.I. computation hits the division by zero. -/
theorem PI_coord_at_180 (Da PIft step : ℝ) (hstep : 0 < step) :
    PI_coord 180 Da PIft step hstep = .error .zeroDivisionError := by
  unfold PI_coord
  have h : Real.tan (radiansOf (180 - 180)) = 0 := by
    have : radiansOf (180 - 180) = 0 := by
      unfold radiansOf
      norm_num
    rw [this, Real.tan_zero]
  rw [if_pos h]

/-- C6 counterexample: at `I = 180` (with `Da = 30 > 0`, `PI = 1000 ft`,
interval 100) the P.I. computation does **not** fail with the
`DegenerateGeometryError` of the design taxonomy — the source has no such
guard; the error actually produced is the interpreter's division-by-zero
error. -/
theorem PI_coord_180_not_degenerate :
    ¬ PI_coord 180 30 1000 100 (by norm_num) =
        Except.error PyErr.degenerateGeometryError := by
  rw [PI_coord_at_180 30 1000 100 (by norm_num)]
  simp

/-- C6 (amended): for input `I = 180` (any `Da > 0`), the P.I. coordinate
computation fails with a division-by-zero error — it raises an exception
rather than returning NaN/infinite coordinates, but the exception is
`ZeroDivisionError`, not a `DegenerateGeometryError` guard. -/
theorem PI_coord_180_zero_division (Da PIft step : ℝ) (hstep : 0 < step)
    (hDa : 0 < Da) :
    PI_coord 180 Da PIft step hstep = .error .zeroDivisionError :=
  PI_coord_at_180 Da PIft step hstep

/-- Witness for `PI_coord_180_zero_division` at `Da = 30`, `PI = 1000`,
interval 100. -/
theorem PI_coord_180_zero_division_witness :
    PI_coord 180 30 1000 100 (by norm_num) = .error .zeroDivisionError :=
  PI_coord_180_zero_division 30 1000 100 (by norm_num) (by norm_num)

/-! ## Station parser and formatter (source lines 22-29)

```
def station_to_ft(sta: str) -> float:
    s = sta.replace('+', '')
    return float(s)

def ft_to_station(x: float) -> str:
    i = int(x // 100)
    r = x - i*100
    return f"{i}+{r:05.2f}"
```

The station strings that the app handles denote exact decimal numbers, so
the parser/formatter is embedded over `ℚ`.  `str.replace('+', '')` removes
every `'+'` character; `float(...)` parses an optionally signed decimal
numeral with an optional fraction part and an optional exponent part and
raises `ValueError` otherwise (modelled as `none`; the `inf`/`nan` words,
underscore digit separators and surrounding whitespace that CPython also
accepts are never exercised by station text and are not modelled).
`f"{i}"` renders the integer in decimal; `f"{r:05.2f}"` renders `r` rounded
to two decimals, zero-padded to a minimal width of 5 characters (a sign, if
any, precedes the padding).  The tie-breaking of that rounding (half-to-even
on the underlying binary float) can differ from `round` (half-up) only when
`100·r` is an exact half-integer, which no statement below exercises. -/

def digitChar (d : ℕ) : Char := Char.ofNat (48 + d)

/-- Little-endian decimal digits of a natural number (`fuel ≥ n` suffices). -/
def natDigitsAux : ℕ → ℕ → List ℕ
  | 0, _ => []
  | _ + 1, 0 => []
  | fuel + 1, n + 1 => (n + 1) % 10 :: natDigitsAux fuel ((n + 1) / 10)

/-- Decimal digit string of a natural number (big-endian), as Python renders it. -/
def natDigitChars (n : ℕ) : List Char :=
  if n = 0 then ['0'] else (natDigitsAux n n).reverse.map digitChar

def natStr (n : ℕ) : String := String.mk (natDigitChars n)

/-- `f"{i}"` for a Python int. -/
def intStr (i : ℤ) : String := if i < 0 then "-" ++ natStr i.natAbs else natStr i.natAbs

/-- Value of a big-endian string of decimal digit characters. -/
def charsToNat (cs : List Char) : ℕ := cs.foldl (fun a c => 10 * a + (c.toNat - 48)) 0

/-- Optional `.digits` fraction: (fraction digits, remaining characters). -/
def fracPart : List Char → List Char × List Char
  | c :: t =>
      if c = '.' then (t.takeWhile Char.isDigit, t.dropWhile Char.isDigit)
      else ([], c :: t)
  | [] => ([], [])

/-- The scanned components of a float literal: sign, integer-part value,
fraction-part value and digit count, exponent sign and value. -/
structure FloatLit where
  neg : Bool
  ip : ℕ
  fp : ℕ
  fplen : ℕ
  eneg : Bool
  ev : ℕ
  deriving DecidableEq

/-- Syntactic scan of a float literal (CPython's grammar for `float(...)`,
without the `inf`/`nan` words, underscores and whitespace). -/
def scanFloat (cs : List Char) : Option FloatLit :=
  let sgn : Bool × List Char :=
    match cs with
    | c :: t => if c = '+' then (false, t) else if c = '-' then (true, t) else (false, cs)
    | [] => (false, [])
  let ip := sgn.2.takeWhile Char.isDigit
  let rest := sgn.2.dropWhile Char.isDigit
  let fp := (fracPart rest).1
  if ip = [] ∧ fp = [] then none
  else
    match (fracPart rest).2 with
    | [] => some ⟨sgn.1, charsToNat ip, charsToNat fp, fp.length, false, 0⟩
    | c :: t =>
      if c = 'e' ∨ c = 'E' then
        let esgn : Bool × List Char :=
          match t with
          | c' :: u => if c' = '+' then (false, u) else if c' = '-' then (true, u) else (false, t)
          | [] => (false, [])
        let ed := esgn.2.takeWhile Char.isDigit
        if ed = [] ∨ esgn.2.dropWhile Char.isDigit ≠ [] then none
        else some ⟨sgn.1, charsToNat ip, charsToNat fp, fp.length, esgn.1, charsToNat ed⟩
      else none

/-- The rational value a scanned float literal denotes. -/
def valueOf (f : FloatLit) : ℚ :=
  (if f.neg then -1 else 1) * ((f.ip : ℚ) + (f.fp : ℚ) / (10 : ℚ) ^ f.fplen) *
    (10 : ℚ) ^ ((if f.eneg then -1 else 1) * (f.ev : ℤ))

/-- Python `float(...)` on the character list of its argument. -/
def parseFloatChars (cs : List Char) : Option ℚ := (scanFloat cs).map valueOf

def parseFloat (s : String) : Option ℚ := parseFloatChars s.toList

def station_to_ft (sta : String) : Option ℚ :=
  parseFloat (String.mk (sta.toList.filter (fun c => c ≠ '+')))

/-- Two-decimal-digit rendering (used for the `%05.2f` field's groups). -/
def twoDigitChars (k : ℕ) : List Char :=
  if k < 10 then '0' :: natDigitChars k else natDigitChars k

/-- Rendering of `f"{r:05.2f}"` once `r` is rounded to `n` hundredths:
digits of `n/100`, a point, two digits of `n % 100`, a sign in front when
negative, zero-padded (after the sign) to a minimal width of 5. -/
def fmt52int (n : ℤ) : String :=
  let a : ℕ := n.natAbs
  let core : List Char := natDigitChars (a / 100) ++ '.' :: twoDigitChars (a % 100)
  let sgn : List Char := if n < 0 then ['-'] else []
  String.mk (sgn ++ List.replicate (5 - (sgn.length + core.length)) '0' ++ core)

/-- `f"{r:05.2f}"`: round to 2 decimals, render, zero-pad to width 5. -/
def fmt52 (r : ℚ) : String := fmt52int (round (100 * r))

def ft_to_station (x : ℚ) : String :=
  let i : ℤ := ⌊x / 100⌋
  let r : ℚ := x - i * 100
  intStr i ++ "+" ++ fmt52 r

/-! ### Elementary facts about the digit strings and the scanner -/

theorem toList_mk (l : List Char) : (String.mk l).toList = l := rfl

theorem toList_append (a b : String) : (a ++ b).toList = a.toList ++ b.toList :=
  String.data_append a b

theorem mk_append_mk (A B : List Char) :
    String.mk A ++ String.mk B = String.mk (A ++ B) := rfl

theorem digitChar_isDigit {d : ℕ} (h : d < 10) : (digitChar d).isDigit = true := by
  interval_cases d <;> decide

theorem digitChar_toNat {d : ℕ} (h : d < 10) : (digitChar d).toNat - 48 = d := by
  interval_cases d <;> decide

theorem isDigit_ne {c : Char} (h : c.isDigit = true) :
    c ≠ '+' ∧ c ≠ '-' ∧ c ≠ '.' ∧ c ≠ 'e' ∧ c ≠ 'E' := by
  refine ⟨?_, ?_, ?_, ?_, ?_⟩ <;> rintro rfl <;> exact absurd h (by decide)

theorem natDigitsAux_zero (f : ℕ) : natDigitsAux f 0 = [] := by
  cases f <;> rfl

theorem natDigitsAux_lt10 : ∀ f n, ∀ d ∈ natDigitsAux f n, d < 10 := by
  intro f
  induction f with
  | zero => intro n d hd; simp [natDigitsAux] at hd
  | succ f ih =>
    intro n d hd
    cases n with
    | zero => simp [natDigitsAux] at hd
    | succ m =>
      rw [natDigitsAux] at hd
      rcases List.mem_cons.mp hd with rfl | hd
      · omega
      · exact ih _ d hd

theorem charsToNat_cons_zero (L : List Char) : charsToNat ('0' :: L) = charsToNat L := rfl

theorem charsToNat_foldl (cs : List Char) :
    ∀ a : ℕ, cs.foldl (fun a c => 10 * a + (c.toNat - 48)) a =
      a * 10 ^ cs.length + charsToNat cs := by
  induction cs with
  | nil => intro a; simp [charsToNat]
  | cons c t ih =>
    intro a
    show t.foldl _ (10 * a + (c.toNat - 48)) = a * 10 ^ (c :: t).length + charsToNat (c :: t)
    rw [ih (10 * a + (c.toNat - 48))]
    have hc : charsToNat (c :: t) = (c.toNat - 48) * 10 ^ t.length + charsToNat t := by
      show t.foldl _ (10 * 0 + (c.toNat - 48)) = _
      rw [ih (10 * 0 + (c.toNat - 48))]
      norm_num
    rw [hc, List.length_cons, pow_succ]
    ring

theorem charsToNat_append (A B : List Char) :
    charsToNat (A ++ B) = charsToNat A * 10 ^ B.length + charsToNat B := by
  unfold charsToNat
  rw [List.foldl_append, charsToNat_foldl B]
  rfl

theorem charsToNat_singleton (c : Char) : charsToNat [c] = c.toNat - 48 := by
  simp [charsToNat]

theorem charsToNat_rev_digits : ∀ f n, n ≤ f →
    charsToNat ((natDigitsAux f n).reverse.map digitChar) = n := by
  intro f
  induction f with
  | zero =>
    intro n hn
    interval_cases n
    simp [natDigitsAux, charsToNat]
  | succ f ih =>
    intro n hn
    cases n with
    | zero => simp [natDigitsAux_zero, charsToNat]
    | succ m =>
      rw [natDigitsAux, List.reverse_cons, List.map_append, charsToNat_append]
      have hdiv : (m + 1) / 10 ≤ f := by omega
      rw [ih _ hdiv]
      have hmod : (m + 1) % 10 < 10 := Nat.mod_lt _ (by norm_num)
      simp only [List.map_cons, List.map_nil, List.length_cons, List.length_nil,
        charsToNat_singleton, digitChar_toNat hmod]
      have := Nat.div_add_mod (m + 1) 10
      omega

theorem charsToNat_natDigitChars (n : ℕ) : charsToNat (natDigitChars n) = n := by
  unfold natDigitChars
  by_cases h : n = 0
  · subst h; decide
  · rw [if_neg h]
    exact charsToNat_rev_digits n n le_rfl

theorem natDigitChars_digits (n : ℕ) : ∀ c ∈ natDigitChars n, c.isDigit = true := by
  unfold natDigitChars
  by_cases h : n = 0
  · subst h; intro c hc; simp at hc; subst hc; decide
  · rw [if_neg h]
    intro c hc
    obtain ⟨d, hd, rfl⟩ := List.mem_map.mp hc
    exact digitChar_isDigit (natDigitsAux_lt10 n n d (List.mem_reverse.mp hd))

theorem natDigitChars_ne_nil (n : ℕ) : natDigitChars n ≠ [] := by
  unfold natDigitChars
  by_cases h : n = 0
  · subst h; simp
  · rw [if_neg h]
    cases n with
    | zero => omega
    | succ m =>
      rw [natDigitsAux]
      simp

theorem natDigitsAux_small {f n : ℕ} (h0 : 0 < n) (h9 : n < 10) (hf : n ≤ f) :
    natDigitsAux f n = [n] := by
  cases f with
  | zero => omega
  | succ f =>
    cases n with
    | zero => omega
    | succ m =>
      rw [natDigitsAux]
      have h1 : (m + 1) / 10 = 0 := by omega
      have h2 : (m + 1) % 10 = m + 1 := by omega
      rw [h1, h2, natDigitsAux_zero]

theorem natDigitsAux_two {f n : ℕ} (h10 : 10 ≤ n) (h99 : n < 100) (hf : n ≤ f) :
    natDigitsAux f n = [n % 10, n / 10] := by
  cases f with
  | zero => omega
  | succ f =>
    cases n with
    | zero => omega
    | succ m =>
      rw [natDigitsAux]
      have : natDigitsAux f ((m + 1) / 10) = [(m + 1) / 10] :=
        natDigitsAux_small (by omega) (by omega) (by omega)
      rw [this]

theorem natDigitChars_len1 {k : ℕ} (h : k < 10) : natDigitChars k = [digitChar k] := by
  unfold natDigitChars
  by_cases h0 : k = 0
  · subst h0; decide
  · rw [if_neg h0, natDigitsAux_small (by omega) h le_rfl]
    rfl

theorem natDigitChars_len2 {k : ℕ} (h10 : 10 ≤ k) (h99 : k < 100) :
    natDigitChars k = [digitChar (k / 10), digitChar (k % 10)] := by
  unfold natDigitChars
  rw [if_neg (by omega), natDigitsAux_two h10 h99 le_rfl]
  rfl

theorem twoDigitChars_digits {k : ℕ} : ∀ c ∈ twoDigitChars k, c.isDigit = true := by
  unfold twoDigitChars
  by_cases h : k < 10
  · rw [if_pos h]
    intro c hc
    rcases List.mem_cons.mp hc with rfl | hc
    · decide
    · exact natDigitChars_digits k c hc
  · rw [if_neg h]
    exact natDigitChars_digits k

theorem twoDigitChars_len {k : ℕ} (h : k < 100) : (twoDigitChars k).length = 2 := by
  unfold twoDigitChars
  by_cases h10 : k < 10
  · rw [if_pos h10, natDigitChars_len1 h10]
    rfl
  · rw [if_neg h10, natDigitChars_len2 (by omega) h]
    rfl

theorem charsToNat_twoDigitChars {k : ℕ} (h : k < 100) :
    charsToNat (twoDigitChars k) = k := by
  unfold twoDigitChars
  by_cases h10 : k < 10
  · rw [if_pos h10, charsToNat_cons_zero, charsToNat_natDigitChars]
  · rw [if_neg h10, charsToNat_natDigitChars]

theorem takeWhile_append_all {p : Char → Bool} (A B : List Char)
    (h : ∀ a ∈ A, p a = true) :
    (A ++ B).takeWhile p = A ++ B.takeWhile p := by
  induction A with
  | nil => simp
  | cons a A ih =>
    have ha := h a (by simp)
    have hA : ∀ x ∈ A, p x = true := fun x hx => h x (by simp [hx])
    simp [List.takeWhile_cons, ha, ih hA]

theorem dropWhile_append_all {p : Char → Bool} (A B : List Char)
    (h : ∀ a ∈ A, p a = true) :
    (A ++ B).dropWhile p = B.dropWhile p := by
  induction A with
  | nil => simp
  | cons a A ih =>
    have ha := h a (by simp)
    have hA : ∀ x ∈ A, p x = true := fun x hx => h x (by simp [hx])
    simp [List.dropWhile_cons, ha, ih hA]

theorem takeWhile_all {p : Char → Bool} (B : List Char) (h : ∀ a ∈ B, p a = true) :
    B.takeWhile p = B := by
  have := takeWhile_append_all B [] h
  simpa using this

theorem dropWhile_all {p : Char → Bool} (B : List Char) (h : ∀ a ∈ B, p a = true) :
    B.dropWhile p = [] := by
  have := dropWhile_append_all B [] h
  simpa using this

/-- The scanner on a plain `digits.digits` literal. -/
theorem scanFloat_append_digits (A B : List Char) (hA : ∀ c ∈ A, c.isDigit = true)
    (hB : ∀ c ∈ B, c.isDigit = true) (hA0 : A ≠ []) :
    scanFloat (A ++ '.' :: B) =
      some ⟨false, charsToNat A, charsToNat B, B.length, false, 0⟩ := by
  obtain ⟨a, A', rfl⟩ : ∃ a A', A = a :: A' := by
    cases A with
    | nil => exact absurd rfl hA0
    | cons a A' => exact ⟨a, A', rfl⟩
  have ha := hA a (by simp)
  have hap : ¬ (a = '+') := fun h => by subst h; exact absurd ha (by decide)
  have ham : ¬ (a = '-') := fun h => by subst h; exact absurd ha (by decide)
  have htake : ((a :: A') ++ '.' :: B).takeWhile Char.isDigit = a :: A' := by
    rw [takeWhile_append_all _ _ hA]
    simp [List.takeWhile_cons]
  have hdrop : ((a :: A') ++ '.' :: B).dropWhile Char.isDigit = '.' :: B := by
    rw [dropWhile_append_all _ _ hA]
    simp [List.dropWhile_cons]
  have hfrac : fracPart ('.' :: B) = (B, []) := by
    show (if ('.' : Char) = '.' then (B.takeWhile Char.isDigit, B.dropWhile Char.isDigit)
      else ([], '.' :: B)) = (B, [])
    rw [if_pos rfl, takeWhile_all B hB, dropWhile_all B hB]
  show scanFloat (a :: (A' ++ '.' :: B)) = _
  unfold scanFloat
  simp only [if_neg hap, if_neg ham]
  rw [show a :: (A' ++ '.' :: B) = (a :: A') ++ '.' :: B from rfl]
  simp only [htake, hdrop, hfrac]
  simp

/-- Following the claim's words: a `<integer>+<decimal>`-shaped numeral — an
integer numeral, one `+` separator, and a decimal numeral. -/
def intPlusDecimalShaped (s : String) : Prop :=
  ∃ ipart dpart : String,
    s = ipart ++ "+" ++ dpart ∧
    ipart.toList ≠ [] ∧ (∀ c ∈ ipart.toList, c.isDigit = true) ∧
    dpart.toList ≠ [] ∧ (∀ c ∈ dpart.toList, c.isDigit = true ∨ c = '.')

/-- C8 counterexample: `station_to_ft` succeeds on the text `"500"`, which is
not a `<integer>+<decimal>`-shaped numeral (it has no `+` separator), so the
parser does not fail on every non-`<integer>+<decimal>`-shaped text. -/
theorem station_to_ft_accepts_unshaped :
    station_to_ft "500" = some 500 ∧ ¬ intPlusDecimalShaped "500" := by
  constructor
  · unfold station_to_ft parseFloat parseFloatChars
    rw [toList_mk]
    rw [show scanFloat ("500".toList.filter (fun c => c ≠ '+')) =
      some ⟨false, 500, 0, 0, false, 0⟩ from by decide]
    simp [valueOf]
  · rintro ⟨ipart, dpart, hs, -, -, -, -⟩
    have hplus : '+' ∈ "500".toList := by
      rw [hs, toList_append, toList_append]
      exact List.mem_append.mpr (Or.inl (List.mem_append.mpr (Or.inr (by decide))))
    exact absurd hplus (by decide)

/-- C8 (amended): `station_to_ft` removes every `+` and parses the remaining
text as one decimal/float numeral — `"10+00.00"` yields `1000` by literal
concatenation (not base-100 grouping: `"10+0.5"` yields `100.5`, not
`1000.5`), and it fails exactly when the remainder is not a numeric literal;
in particular texts without the `<integer>+<decimal>` shape, such as `"500"`
or `"1e2"`, still parse successfully. -/
theorem station_to_ft_amended :
    (∀ s : String, station_to_ft s =
      parseFloatChars (s.toList.filter (fun c => c ≠ '+'))) ∧
    station_to_ft "10+00.00" = some 1000 ∧
    station_to_ft "10+0.5" = some (201 / 2) ∧
    station_to_ft "500" = some 500 ∧
    station_to_ft "1e2" = some 100 ∧
    station_to_ft "abc" = none ∧
    station_to_ft "" = none := by
  refine ⟨fun s => rfl, ?_, ?_, ?_, ?_, by decide, by decide⟩
  · unfold station_to_ft parseFloat parseFloatChars
    rw [toList_mk]
    rw [show scanFloat ("10+00.00".toList.filter (fun c => c ≠ '+')) =
      some ⟨false, 1000, 0, 2, false, 0⟩ from by decide]
    simp [valueOf]
  · unfold station_to_ft parseFloat parseFloatChars
    rw [toList_mk]
    rw [show scanFloat ("10+0.5".toList.filter (fun c => c ≠ '+')) =
      some ⟨false, 100, 5, 1, false, 0⟩ from by decide]
    simp [valueOf]
    norm_num
  · unfold station_to_ft parseFloat parseFloatChars
    rw [toList_mk]
    rw [show scanFloat ("500".toList.filter (fun c => c ≠ '+')) =
      some ⟨false, 500, 0, 0, false, 0⟩ from by decide]
    simp [valueOf]
  · unfold station_to_ft parseFloat parseFloatChars
    rw [toList_mk]
    rw [show scanFloat ("1e2".toList.filter (fun c => c ≠ '+')) =
      some ⟨false, 1, 0, 0, false, 2⟩ from by decide]
    simp [valueOf]
    norm_num

/-- The remainder of a station value after removing whole hundreds lies in
`[0, 100)`. -/
theorem sub_floor_hundred_bounds (x : ℚ) :
    0 ≤ x - (⌊x / 100⌋ : ℚ) * 100 ∧ x - (⌊x / 100⌋ : ℚ) * 100 < 100 := by
  have h1 : (⌊x / 100⌋ : ℚ) ≤ x / 100 := Int.floor_le _
  have h2 : x / 100 < ⌊x / 100⌋ + 1 := Int.lt_floor_add_one _
  have hx : x / 100 * 100 = x := by ring
  constructor
  · nlinarith
  · nlinarith

/-- C9: for a non-negative distance the formatter renders
`"<floor(x/100)>+<x mod 100 as %05.2f>"`: the group is `⌊x/100⌋`, the offset
`x − 100·⌊x/100⌋` lies in `[0, 100)` and is rendered rounded to 2 decimals
zero-padded to width 5; when the offset rounds up to `100.00` the group is
**not** incremented: `1999.99 ft` renders as `"1+100.00"` (sub-100 part just
below `100`), not `"2+00.00"`. -/
theorem ft_to_station_spec :
    (∀ x : ℚ, 0 ≤ x →
      0 ≤ x - (⌊x / 100⌋ : ℚ) * 100 ∧
      x - (⌊x / 100⌋ : ℚ) * 100 < 100 ∧
      0 ≤ ⌊x / 100⌋ ∧
      ft_to_station x =
        intStr ⌊x / 100⌋ ++ "+" ++ fmt52 (x - (⌊x / 100⌋ : ℚ) * 100)) ∧
    ft_to_station (199999 / 1000) = "1+100.00" := by
  constructor
  · intro x hx
    refine ⟨(sub_floor_hundred_bounds x).1, (sub_floor_hundred_bounds x).2, ?_, rfl⟩
    exact Int.floor_nonneg.mpr (by positivity)
  · show intStr ⌊(199999 / 1000 : ℚ) / 100⌋ ++ "+" ++
      fmt52 ((199999 / 1000 : ℚ) - (⌊(199999 / 1000 : ℚ) / 100⌋ : ℚ) * 100) = "1+100.00"
    rw [show ⌊(199999 / 1000 : ℚ) / 100⌋ = 1 from by norm_num [Int.floor_eq_iff]]
    rw [show ((199999 / 1000 : ℚ) - ((1 : ℤ) : ℚ) * 100) = 99999 / 1000 from by
      push_cast; norm_num]
    show intStr 1 ++ "+" ++ fmt52int (round ((100 : ℚ) * (99999 / 1000))) = "1+100.00"
    rw [show round ((100 : ℚ) * (99999 / 1000)) = (10000 : ℤ) from by
      norm_num [round_eq, Int.floor_eq_iff]]
    decide

/-- C10: with `I = 120`, `Da = 8`, `PI = 1000 ft` the tangent length exceeds
the PI distance, so the PC station is negative; `ft_to_station` still
formats any negative value — floor division yields a negative group and an
offset in `[0, 100)` — e.g. `−240.5 ft` renders as `"-3+59.50"`. -/
theorem negative_station_format :
    PC_station 120 8 1000 < 0 ∧
    (∀ x : ℚ, x < 0 →
      ⌊x / 100⌋ < 0 ∧
      0 ≤ x - (⌊x / 100⌋ : ℚ) * 100 ∧
      x - (⌊x / 100⌋ : ℚ) * 100 < 100 ∧
      ft_to_station x =
        intStr ⌊x / 100⌋ ++ "+" ++ fmt52 (x - (⌊x / 100⌋ : ℚ) * 100)) ∧
    ft_to_station (-481 / 2) = "-3+59.50" := by
  refine ⟨?_, ?_, ?_⟩
  · unfold PC_station T_val R_val radiansOf
    have hrad : (120 : ℝ) / 2 * π / 180 = π / 3 := by ring
    rw [hrad, Real.tan_pi_div_three]
    have hπ : π < 3.15 := pi_lt_d2
    have hπ0 : 0 < π := pi_pos
    have h3 : (1.7 : ℝ) < Real.sqrt 3 := by
      nlinarith [Real.sq_sqrt (by norm_num : (3:ℝ) ≥ 0), Real.sqrt_nonneg 3]
    have hT : (1000 : ℝ) < 18000 / (π * 8) * Real.sqrt 3 := by
      rw [div_mul_eq_mul_div, lt_div_iff₀ (by positivity)]
      nlinarith
    linarith
  · intro x hx
    refine ⟨?_, (sub_floor_hundred_bounds x).1, (sub_floor_hundred_bounds x).2, rfl⟩
    have : x / 100 < 0 := by nlinarith
    exact Int.floor_lt.mpr (by simpa using this)
  · show intStr ⌊(-481 / 2 : ℚ) / 100⌋ ++ "+" ++
      fmt52 ((-481 / 2 : ℚ) - (⌊(-481 / 2 : ℚ) / 100⌋ : ℚ) * 100) = "-3+59.50"
    rw [show ⌊(-481 / 2 : ℚ) / 100⌋ = -3 from by norm_num [Int.floor_eq_iff]]
    rw [show ((-481 / 2 : ℚ) - ((-3 : ℤ) : ℚ) * 100) = 119 / 2 from by
      push_cast; norm_num]
    show intStr (-3) ++ "+" ++ fmt52int (round ((100 : ℚ) * (119 / 2))) = "-3+59.50"
    rw [show round ((100 : ℚ) * (119 / 2)) = (5950 : ℤ) from by
      norm_num [round_eq, Int.floor_eq_iff]]
    decide

/-- A well-formed station text with exactly 2 fractional digits, per the
display form of the data model: a canonical decimal group, the `+`
separator, and a width-5 zero-padded offset `dd.dd` below `100`. -/
def wellFormedStation (s : String) : Prop :=
  ∃ g c : ℕ, c < 10000 ∧
    s = natStr g ++ "+" ++
      String.mk (twoDigitChars (c / 100) ++ '.' :: twoDigitChars (c % 100))

/-- Rendering `%05.2f` of a value with at most 4 integral digits in
hundredths: two zero-padded digit groups around the point. -/
theorem fmt52int_of_small {c : ℕ} (hc : c < 10000) :
    fmt52int (c : ℤ) = String.mk (twoDigitChars (c / 100) ++ '.' :: twoDigitChars (c % 100)) := by
  unfold fmt52int
  have hge : ¬ ((c : ℤ) < 0) := by omega
  have habs : (c : ℤ).natAbs = c := Int.natAbs_ofNat c
  simp only [habs, if_neg hge]
  have hmodlen : (twoDigitChars (c % 100)).length = 2 :=
    twoDigitChars_len (Nat.mod_lt _ (by norm_num))
  by_cases h10 : c / 100 < 10
  · rw [natDigitChars_len1 h10]
    have hlen : (([] : List Char) ++ List.replicate (5 - (([] : List Char).length +
        ([digitChar (c / 100)] ++ '.' :: twoDigitChars (c % 100)).length)) '0' ++
        ([digitChar (c / 100)] ++ '.' :: twoDigitChars (c % 100))) =
        '0' :: digitChar (c / 100) :: '.' :: twoDigitChars (c % 100) := by
      simp [hmodlen, List.replicate]
    rw [hlen]
    unfold twoDigitChars
    rw [if_pos h10, natDigitChars_len1 h10]
    rfl
  · have h100 : c / 100 < 100 := by omega
    rw [natDigitChars_len2 (by omega) h100]
    have hlen : (([] : List Char) ++ List.replicate (5 - (([] : List Char).length +
        ([digitChar (c / 100 / 10), digitChar (c / 100 % 10)] ++
          '.' :: twoDigitChars (c % 100)).length)) '0' ++
        ([digitChar (c / 100 / 10), digitChar (c / 100 % 10)] ++
          '.' :: twoDigitChars (c % 100))) =
        digitChar (c / 100 / 10) :: digitChar (c / 100 % 10) :: '.' ::
          twoDigitChars (c % 100) := by
      simp [hmodlen, List.replicate]
    rw [hlen]
    unfold twoDigitChars
    rw [if_neg h10, natDigitChars_len2 (by omega) h100]
    rfl

/-- C5: parsing a well-formed station text and formatting the value
reproduces the text. -/
theorem station_roundtrip (s : String) (h : wellFormedStation s) :
    ∃ v : ℚ, station_to_ft s = some v ∧ ft_to_station v = s := by
  obtain ⟨g, c, hc, rfl⟩ := h
  have hG := natDigitChars_digits g
  have hG0 := natDigitChars_ne_nil g
  have hD1 : ∀ x ∈ twoDigitChars (c / 100), x.isDigit = true := twoDigitChars_digits
  have hD2 : ∀ x ∈ twoDigitChars (c % 100), x.isDigit = true := twoDigitChars_digits
  have hD1len : (twoDigitChars (c / 100)).length = 2 := twoDigitChars_len (by omega)
  have hD2len : (twoDigitChars (c % 100)).length = 2 :=
    twoDigitChars_len (Nat.mod_lt _ (by norm_num))
  -- the character list of the input text
  have hslist : (natStr g ++ "+" ++
      String.mk (twoDigitChars (c / 100) ++ '.' :: twoDigitChars (c % 100))).toList =
      natDigitChars g ++ '+' :: (twoDigitChars (c / 100) ++ '.' :: twoDigitChars (c % 100)) := by
    rw [toList_append, toList_append, toList_mk]
    show natDigitChars g ++ ['+'] ++ _ = _
    simp
  -- removing the separator
  have hfilter : (natDigitChars g ++ '+' ::
      (twoDigitChars (c / 100) ++ '.' :: twoDigitChars (c % 100))).filter
        (fun x => x ≠ '+') =
      (natDigitChars g ++ twoDigitChars (c / 100)) ++ '.' :: twoDigitChars (c % 100) := by
    rw [List.filter_append]
    have h1 : (natDigitChars g).filter (fun x => x ≠ '+') = natDigitChars g :=
      List.filter_eq_self.mpr fun a ha => by
        simp [(isDigit_ne (hG a ha)).1]
    have h2 : ('+' :: (twoDigitChars (c / 100) ++ '.' :: twoDigitChars (c % 100))).filter
        (fun x => x ≠ '+') =
        twoDigitChars (c / 100) ++ '.' :: twoDigitChars (c % 100) := by
      rw [List.filter_cons_of_neg (by simp)]
      refine List.filter_eq_self.mpr fun a ha => ?_
      rcases List.mem_append.mp ha with ha | ha
      · simp [(isDigit_ne (hD1 a ha)).1]
      · rcases List.mem_cons.mp ha with rfl | ha
        · decide
        · simp [(isDigit_ne (hD2 a ha)).1]
    rw [h1, h2, List.append_assoc]
  -- the parsed value
  have hAdig : ∀ x ∈ natDigitChars g ++ twoDigitChars (c / 100), x.isDigit = true := by
    intro x hx
    rcases List.mem_append.mp hx with hx | hx
    · exact hG x hx
    · exact hD1 x hx
  have hA0 : natDigitChars g ++ twoDigitChars (c / 100) ≠ [] := by
    simp [hG0]
  have hAval : charsToNat (natDigitChars g ++ twoDigitChars (c / 100)) =
      100 * g + c / 100 := by
    rw [charsToNat_append, hD1len, charsToNat_natDigitChars,
      charsToNat_twoDigitChars (by omega)]
    ring
  have hparse : station_to_ft (natStr g ++ "+" ++
      String.mk (twoDigitChars (c / 100) ++ '.' :: twoDigitChars (c % 100))) =
      some (valueOf ⟨false, 100 * g + c / 100, c % 100, 2, false, 0⟩) := by
    unfold station_to_ft parseFloat parseFloatChars
    rw [toList_mk, hslist, hfilter,
      scanFloat_append_digits _ _ hAdig hD2 hA0, hAval,
      charsToNat_twoDigitChars (Nat.mod_lt _ (by norm_num)), hD2len]
    rfl
  have hvq : valueOf ⟨false, 100 * g + c / 100, c % 100, 2, false, 0⟩ =
      100 * (g : ℚ) + (c : ℚ) / 100 := by
    unfold valueOf
    have hsplit : (c : ℚ) / 100 = ((c / 100 : ℕ) : ℚ) + ((c % 100 : ℕ) : ℚ) / 100 := by
      have hdm : ((100 * (c / 100) + c % 100 : ℕ) : ℚ) = (c : ℚ) := by
        exact_mod_cast congrArg (Nat.cast (R := ℚ)) (Nat.div_add_mod c 100)
      push_cast at hdm ⊢
      linarith
    simp
    push_cast
    rw [hsplit]
    ring
  refine ⟨100 * (g : ℚ) + (c : ℚ) / 100, by rw [hparse, hvq], ?_⟩
  -- formatting the value reproduces the text
  have hfl : ⌊(100 * (g : ℚ) + (c : ℚ) / 100) / 100⌋ = (g : ℤ) := by
    rw [Int.floor_eq_iff]
    constructor
    · push_cast
      have : (0 : ℚ) ≤ (c : ℚ) / 100 / 100 := by positivity
      nlinarith
    · push_cast
      have : (c : ℚ) < 10000 := by exact_mod_cast hc
      nlinarith
  show intStr ⌊(100 * (g : ℚ) + (c : ℚ) / 100) / 100⌋ ++ "+" ++
    fmt52 ((100 * (g : ℚ) + (c : ℚ) / 100) -
      (⌊(100 * (g : ℚ) + (c : ℚ) / 100) / 100⌋ : ℚ) * 100) = _
  rw [hfl]
  have hoff : (100 * (g : ℚ) + (c : ℚ) / 100) - ((g : ℤ) : ℚ) * 100 = (c : ℚ) / 100 := by
    push_cast
    ring
  rw [hoff]
  have hround : fmt52 ((c : ℚ) / 100) = fmt52int (c : ℤ) := by
    unfold fmt52
    have : (100 : ℚ) * ((c : ℚ) / 100) = (c : ℚ) := by
      field_simp
    rw [this]
    norm_num
  rw [hround, fmt52int_of_small hc]
  have hint : intStr ((g : ℕ) : ℤ) = natStr g := by
    unfold intStr
    rw [if_neg (by omega : ¬ ((g : ℕ) : ℤ) < 0), Int.natAbs_ofNat]
  rw [hint]

/-- Witness for `station_roundtrip` at the default PI station text. -/
theorem station_roundtrip_witness :
    ∃ v : ℚ, station_to_ft "10+00.00" = some v ∧ ft_to_station v = "10+00.00" :=
  station_roundtrip "10+00.00" ⟨10, 0, by norm_num, by decide⟩

/-! ## Chord tables (source lines 66-73)

```
tape_ct = [0.00]
edm_ct  = [0.00]
for i in range(1, len(stations)):
    d_inc = deflection_deg[i] - deflection_deg[i-1]
    chord_inc = 2*R*math.sin(math.radians(d_inc))
    chord_cum = 2*R*math.sin(math.radians(deflection_deg[i]))
    tape_ct.append(round(chord_inc, 2))
    edm_ct.append(round(chord_cum,  2))
```
`round(x, 2)` rounds to hundredths; its tie-breaking (half-to-even on the
binary float) can differ from `round` (half-up) only when `100·x` is an
exact half-integer, which never holds in the bounds proved below. -/

noncomputable def roundTo2 (x : ℝ) : ℝ := (round (100 * x) : ℤ) / 100

noncomputable def tape_ct (I Da PIft step : ℝ) (hstep : 0 < step) : List ℝ :=
  0 :: List.zipWith
    (fun dprev dcur => roundTo2 (2 * R_val Da * Real.sin (radiansOf (dcur - dprev))))
    (deflection_deg I Da PIft step hstep) (deflection_deg I Da PIft step hstep).tail

noncomputable def edm_ct (I Da PIft step : ℝ) (hstep : 0 < step) : List ℝ :=
  0 :: (deflection_deg I Da PIft step hstep).tail.map
    (fun d => roundTo2 (2 * R_val Da * Real.sin (radiansOf d)))

/-! ## The page's top-level guard (source lines 42 and 144-145)

`if Da_deg > 0 and I_deg > 0: ...` computes everything and renders it;
`else: st.warning("Input I and Dₐ.")` renders only a guidance warning.
An exception escaping the computation (a bad PI text raising `ValueError`
in `float`, or the `I = 180` division by zero) crashes the script instead
of rendering, modelled by `uncaughtError`. -/

inductive AppResult where
  | warning
  | uncaughtError (e : PyErr)
  | output (R T L PCsta PTsta : ℝ) (stas defl tape edm : List ℝ)
      (pts : List (ℝ × ℝ)) (piXY : ℝ × ℝ)

open scoped Classical in
noncomputable def runApp (I Da : ℝ) (PIstr : String) (step : ℝ) (hstep : 0 < step) :
    AppResult :=
  if 0 < Da ∧ 0 < I then
    match station_to_ft PIstr with
    | none => .uncaughtError .valueError
    | some q =>
        match PI_coord I Da (q : ℝ) step hstep with
        | .error e => .uncaughtError e
        | .ok p =>
            .output (R_val Da) (T_val I Da) (L_val I Da)
              (PC_station I Da q) (PT_station I Da q)
              (stations (PC_station I Da q) (PT_station I Da q) step hstep)
              (deflection_deg I Da q step hstep)
              (tape_ct I Da q step hstep) (edm_ct I Da q step hstep)
              (curve_points I Da q step hstep) p
  else .warning

/-- C7: with a non-positive intersection angle or degree of curve the page
computes nothing and only warns; no exception propagates. -/
theorem runApp_warning (I Da : ℝ) (PIstr : String) (step : ℝ) (hstep : 0 < step)
    (h : I ≤ 0 ∨ Da ≤ 0) :
    runApp I Da PIstr step hstep = .warning := by
  unfold runApp
  rw [if_neg]
  rintro ⟨hDa, hI⟩
  rcases h with h | h <;> linarith

/-- Witness for `runApp_warning` at `I = 0`. -/
theorem runApp_warning_witness :
    runApp 0 8 "10+00.00" 50 (by norm_num) = .warning :=
  runApp_warning 0 8 "10+00.00" 50 (by norm_num) (Or.inl le_rfl)

/-! ### Helper lemmas for the chord tables -/

/-- Consecutive differences along a list, as the loop forms them. -/
noncomputable def diffs (l : List ℝ) : List ℝ :=
  List.zipWith (fun a b => b - a) l l.tail

theorem getLastD_cons (b x : ℝ) (u : List ℝ) :
    (b :: u).getLast?.getD x = u.getLast?.getD b := by
  induction u generalizing b x with
  | nil => rfl
  | cons c v ih =>
    rw [List.getLast?_cons_cons, ih c x, ih c b]

theorem diffs_sum (t : List ℝ) : ∀ a : ℝ, (diffs (a :: t)).sum = t.getLast?.getD a - a := by
  induction t with
  | nil => intro a; simp [diffs]
  | cons b u ih =>
    intro a
    show (List.zipWith (fun p q => q - p) (a :: b :: u) (b :: u)).sum = _
    rw [List.zipWith_cons_cons, List.sum_cons]
    have h1 : List.zipWith (fun p q => q - p) (b :: u) u = diffs (b :: u) := rfl
    rw [h1, ih b, getLastD_cons b a u]
    ring

theorem diffs_nonneg (l : List ℝ) (h : List.Chain' (· ≤ ·) l) :
    ∀ x ∈ diffs l, 0 ≤ x := by
  induction l with
  | nil => intro x hx; simp [diffs] at hx
  | cons a t ih =>
    cases t with
    | nil => intro x hx; simp [diffs] at hx
    | cons b u =>
      intro x hx
      have hab : a ≤ b := (List.chain'_cons.mp h).1
      have ht : List.Chain' (· ≤ ·) (b :: u) := (List.chain'_cons.mp h).2
      have hd : diffs (a :: b :: u) = (b - a) :: diffs (b :: u) := by
        unfold diffs
        rw [show (a :: b :: u).tail = b :: u from rfl, List.zipWith_cons_cons]
        rfl
      rw [hd] at hx
      rcases List.mem_cons.mp hx with rfl | hx
      · linarith
      · exact ih ht x hx

theorem sin_sum_le (l : List ℝ) (h0 : ∀ x ∈ l, 0 ≤ x) (hπ : l.sum ≤ π) :
    Real.sin l.sum ≤ (l.map Real.sin).sum := by
  induction l with
  | nil => simp
  | cons x t ih =>
    have hx : 0 ≤ x := h0 x (by simp)
    have ht : ∀ y ∈ t, 0 ≤ y := fun y hy => h0 y (by simp [hy])
    have hts : 0 ≤ t.sum := List.sum_nonneg ht
    have hsum : x + t.sum ≤ π := by
      have := hπ
      rw [List.sum_cons] at this
      exact this
    have htπ : t.sum ≤ π := by linarith
    have key : Real.sin (x + t.sum) ≤ Real.sin x + Real.sin t.sum := by
      rw [Real.sin_add]
      nlinarith [Real.cos_le_one x, Real.cos_le_one t.sum,
        Real.sin_nonneg_of_nonneg_of_le_pi hx (by linarith),
        Real.sin_nonneg_of_nonneg_of_le_pi hts htπ]
    calc Real.sin (x :: t).sum = Real.sin (x + t.sum) := by rw [List.sum_cons]
      _ ≤ Real.sin x + Real.sin t.sum := key
      _ ≤ Real.sin x + (t.map Real.sin).sum := by linarith [ih ht htπ]
      _ = ((x :: t).map Real.sin).sum := by simp

theorem roundTo2_bounds (x : ℝ) : x - 1 / 200 ≤ roundTo2 x ∧ roundTo2 x ≤ x + 1 / 200 := by
  have h := abs_le.mp (abs_sub_round (100 * x))
  unfold roundTo2
  constructor <;> [linarith [h.2]; linarith [h.1]]

theorem sum_map_roundTo2_ge (l : List ℝ) :
    l.sum - l.length / 200 ≤ (l.map roundTo2).sum := by
  induction l with
  | nil => simp
  | cons x t ih =>
    simp only [List.sum_cons, List.map_cons, List.length_cons]
    have := (roundTo2_bounds x).1
    push_cast
    linarith

theorem sum_map_mul (c : ℝ) (f : ℝ → ℝ) (l : List ℝ) :
    (l.map fun d => c * f d).sum = c * (l.map f).sum := by
  induction l with
  | nil => simp
  | cons x t ih =>
    simp only [List.map_cons, List.sum_cons, ih]
    ring

/-- The deflection sequence is non-decreasing (standalone form). -/
theorem deflection_chain (I Da PIft step : ℝ) (hstep : 0 < step)
    (hI : 0 < I) (hDa : 0 < Da) :
    List.Chain' (· ≤ ·) (deflection_deg I Da PIft step hstep) := by
  have hPCPT : PC_station I Da PIft ≤ PT_station I Da PIft := by
    have hL : 0 < L_val I Da := div_pos (by linarith) hDa
    unfold PT_station
    linarith
  rw [List.chain'_iff_pairwise]
  unfold deflection_deg
  rw [List.pairwise_map]
  refine (stations_pairwise _ _ _ hstep hPCPT).imp ?_
  intro a b hab
  unfold deflection
  have := mul_le_mul_of_nonneg_left (sub_le_sub_right hab (PC_station I Da PIft)) hDa.le
  linarith

/-- C4 (amended): the final cumulative chord never exceeds the sum of the
incremental chords by more than the accumulated per-entry rounding slop of
`0.005` ft — the unrounded polygon length dominates the direct chord
(`sin` is subadditive on `[0, π]`); the claimed `1e-6` agreement does not
hold in general. -/
theorem chord_sum_amended (I Da PIft step : ℝ) (hstep : 0 < step)
    (hI : 0 < I) (hI180 : I ≤ 180) (hDa : 0 < Da) :
    ∃ cfin, (edm_ct I Da PIft step hstep).getLast? = some cfin ∧
      cfin ≤ (tape_ct I Da PIft step hstep).sum +
        (stations (PC_station I Da PIft) (PT_station I Da PIft) step hstep).length / 200 := by
  set PCv := PC_station I Da PIft with hPCv
  set PTv := PT_station I Da PIft with hPTv
  set mid := (List.range (nInter PCv PTv step)).map
    (fun k : ℕ => first_full PCv step + (k : ℝ) * step) with hmid
  have hstruct : stations PCv PTv step hstep = PCv :: (mid ++ [PTv]) :=
    stations_structure PCv PTv step hstep
  have hds : deflection_deg I Da PIft step hstep =
      deflection Da PCv PCv :: (mid.map (deflection Da PCv) ++ [deflection Da PCv PTv]) := by
    unfold deflection_deg
    rw [← hPCv, ← hPTv, hstruct]
    simp
  have hd0 : deflection Da PCv PCv = 0 := by
    unfold deflection
    simp
  have hsub : PTv - PCv = L_val I Da := by
    rw [hPTv, hPCv]
    unfold PT_station
    ring
  have hdPT : deflection Da PCv PTv = I / 2 := by
    unfold deflection
    rw [hsub]
    unfold L_val
    field_simp
    ring
  set ds := deflection_deg I Da PIft step hstep with hdsdef
  set g : ℝ → ℝ := fun d => roundTo2 (2 * R_val Da * Real.sin (radiansOf d)) with hg
  -- the last entry of the cumulative table
  have hedm : edm_ct I Da PIft step hstep = 0 :: (ds.tail.map g) := rfl
  have hdstail : ds.tail = mid.map (deflection Da PCv) ++ [deflection Da PCv PTv] := by
    rw [hds]
    rfl
  have hlast : (edm_ct I Da PIft step hstep).getLast? = some (g (I / 2)) := by
    rw [hedm, hdstail, List.map_append]
    rw [show (0 : ℝ) :: ((mid.map (deflection Da PCv)).map g ++
      [deflection Da PCv PTv].map g) = ((0 : ℝ) :: (mid.map (deflection Da PCv)).map g) ++
      [g (deflection Da PCv PTv)] from rfl]
    rw [List.getLast?_concat, hdPT]
  refine ⟨g (I / 2), hlast, ?_⟩
  -- the incremental table as rounded values of the true increments
  have hchain : List.Chain' (· ≤ ·) ds := deflection_chain I Da PIft step hstep hI hDa
  have hnn : ∀ x ∈ diffs ds, 0 ≤ x := diffs_nonneg ds hchain
  have htape : tape_ct I Da PIft step hstep =
      0 :: (diffs ds).map (fun d => roundTo2 (2 * R_val Da * Real.sin (radiansOf d))) := by
    unfold tape_ct
    rw [← hdsdef]
    congr 1
    conv_rhs => rw [show diffs ds = List.zipWith (fun a b => b - a) ds ds.tail from rfl,
      List.map_zipWith]
  -- the true increments sum to at least the direct chord
  have hradnn : ∀ x ∈ (diffs ds).map radiansOf, 0 ≤ x := by
    intro x hx
    obtain ⟨d, hd, rfl⟩ := List.mem_map.mp hx
    unfold radiansOf
    have := hnn d hd
    positivity
  have hdiffsum : (diffs ds).sum = I / 2 := by
    rw [hds]
    rw [diffs_sum (mid.map (deflection Da PCv) ++ [deflection Da PCv PTv]) (deflection Da PCv PCv)]
    rw [List.getLast?_concat, hd0, hdPT]
    simp
  have hradsum : ((diffs ds).map radiansOf).sum = radiansOf (I / 2) := by
    have hcong : (diffs ds).map radiansOf = (diffs ds).map (fun d => π / 180 * d) := by
      refine List.map_congr_left fun d _ => ?_
      unfold radiansOf
      ring
    rw [hcong, sum_map_mul (π / 180) (fun d => d)]
    have : ((diffs ds).map fun d => d).sum = (diffs ds).sum := by simp
    rw [this, hdiffsum]
    unfold radiansOf
    ring
  have hradI2_le : radiansOf (I / 2) ≤ π := by
    unfold radiansOf
    have hπ := pi_pos
    nlinarith
  have hsinsum : Real.sin (radiansOf (I / 2)) ≤
      ((diffs ds).map (fun d => Real.sin (radiansOf d))).sum := by
    have h := sin_sum_le ((diffs ds).map radiansOf) hradnn (by rw [hradsum]; exact hradI2_le)
    rw [hradsum] at h
    rw [List.map_map] at h
    exact h
  -- put the bounds together
  have hR2 : 0 ≤ 2 * R_val Da := by
    unfold R_val
    positivity
  have hlen : ((diffs ds).length : ℝ) + 1 =
      ((stations PCv PTv step hstep).length : ℝ) := by
    have h1 : (diffs ds).length = min ds.length ds.tail.length := List.length_zipWith ..
    have h2 : ds.length = (stations PCv PTv step hstep).length := by
      rw [hdsdef]
      unfold deflection_deg
      rw [← hPCv, ← hPTv]
      exact List.length_map _ _
    have h3 : ds.length = mid.length + 2 := by
      rw [hds]
      simp
    have h4 : ds.tail.length = mid.length + 1 := by
      rw [hdstail]
      simp
    rw [h1, h4, ← h2, h3]
    push_cast [min_eq_right (by omega : mid.length + 1 ≤ mid.length + 2)]
    ring
  have hsum_ge : ((diffs ds).map (fun d => 2 * R_val Da * Real.sin (radiansOf d))).sum -
      ((diffs ds).length : ℝ) / 200 ≤ (tape_ct I Da PIft step hstep).sum := by
    rw [htape, List.sum_cons]
    have h := sum_map_roundTo2_ge ((diffs ds).map (fun d => 2 * R_val Da * Real.sin (radiansOf d)))
    rw [List.map_map] at h
    have hcomp : (roundTo2 ∘ fun d => 2 * R_val Da * Real.sin (radiansOf d)) =
        fun d => roundTo2 (2 * R_val Da * Real.sin (radiansOf d)) := rfl
    rw [hcomp] at h
    rw [List.length_map] at h
    linarith
  have hmul : 2 * R_val Da * Real.sin (radiansOf (I / 2)) ≤
      ((diffs ds).map (fun d => 2 * R_val Da * Real.sin (radiansOf d))).sum := by
    rw [sum_map_mul (2 * R_val Da) (fun d => Real.sin (radiansOf d))]
    exact mul_le_mul_of_nonneg_left hsinsum hR2
  have hcfin : g (I / 2) ≤ 2 * R_val Da * Real.sin (radiansOf (I / 2)) + 1 / 200 := by
    rw [hg]
    exact (roundTo2_bounds _).2
  linarith

/-- Witness for `chord_sum_amended` at the default inputs. -/
theorem chord_sum_amended_witness :
    ∃ cfin, (edm_ct 40 8 1000 50 (by norm_num)).getLast? = some cfin ∧
      cfin ≤ (tape_ct 40 8 1000 50 (by norm_num)).sum +
        (stations (PC_station 40 8 1000) (PT_station 40 8 1000) 50 (by norm_num)).length / 200 :=
  chord_sum_amended 40 8 1000 50 (by norm_num) (by norm_num) (by norm_num) (by norm_num)

/-! ### The counterexample input `I = 90`, `Da = 30`, `PI = 1000 ft`,
interval `100 ft`: stations `[PC, 1000, 1100, PT]` with `PC = 1000 − 600/π`,
`PT = 1300 − 600/π`; the polygon of incremental chords is about 7 ft longer
than the direct `PC`–`PT` chord. -/

theorem cexPC : PC_station 90 30 1000 = 1000 - 600 / π := by
  unfold PC_station T_val R_val radiansOf
  rw [show (90 : ℝ) / 2 * π / 180 = π / 4 by ring, Real.tan_pi_div_four]
  rw [mul_one]
  congr 1
  rw [div_eq_div_iff (by positivity : (0:ℝ) < π * 30).ne' pi_ne_zero]
  ring

theorem cexPT : PT_station 90 30 1000 = 1300 - 600 / π := by
  unfold PT_station L_val
  rw [cexPC]
  norm_num
  ring

theorem cexFirst : first_full (PC_station 90 30 1000) 100 = 1000 := by
  unfold first_full
  rw [cexPC]
  have h3 : (3 : ℝ) < π := pi_gt_three
  have h4 : π ≤ 4 := pi_le_four
  have hlo : (100 : ℝ) ≤ 600 / π := by
    rw [le_div_iff₀ (by linarith)]
    linarith
  have hhi : (600 : ℝ) / π < 200 := by
    rw [div_lt_iff₀ (by linarith)]
    linarith
  have hceil : ⌈(1000 - 600 / π + 100) / 100⌉ = (10 : ℤ) := by
    rw [Int.ceil_eq_iff]
    constructor
    · push_cast
      rw [lt_div_iff₀ (by norm_num : (0:ℝ) < 100)]
      linarith
    · push_cast
      rw [div_le_iff₀ (by norm_num : (0:ℝ) < 100)]
      linarith
  rw [hceil]
  norm_num

theorem cexN : nInter (PC_station 90 30 1000) (PT_station 90 30 1000) 100 = 2 := by
  unfold nInter
  rw [cexFirst, cexPT]
  have h3 : (3.14 : ℝ) < π := pi_gt_d2
  have h4 : π ≤ 4 := pi_le_four
  have hlo : (100 : ℝ) ≤ 600 / π := by
    rw [le_div_iff₀ (by linarith)]
    linarith
  have hhi : (600 : ℝ) / π < 199 := by
    rw [div_lt_iff₀ (by linarith)]
    nlinarith
  have hceil : ⌈(1300 - 600 / π - 1e-6 - 1000) / 100⌉ = (2 : ℤ) := by
    rw [Int.ceil_eq_iff]
    constructor
    · push_cast
      rw [lt_div_iff₀ (by norm_num : (0:ℝ) < 100)]
      norm_num
      linarith
    · push_cast
      rw [div_le_iff₀ (by norm_num : (0:ℝ) < 100)]
      norm_num
      linarith
  rw [hceil]
  rfl

theorem cexStations (hstep : (0 : ℝ) < 100) :
    stations (PC_station 90 30 1000) (PT_station 90 30 1000) 100 hstep =
      [PC_station 90 30 1000, 1000, 1100, PT_station 90 30 1000] := by
  rw [stations_structure, cexN, cexFirst]
  norm_num [List.range_succ]

theorem cexDs (hstep : (0 : ℝ) < 100) :
    deflection_deg 90 30 1000 100 hstep = [0, 90 / π, 15 + 90 / π, 45] := by
  unfold deflection_deg
  rw [cexStations hstep]
  simp only [List.map_cons, List.map_nil, deflection, cexPC, cexPT]
  rw [show (30:ℝ) * ((1000 - 600/π) - (1000 - 600/π)) / 200 = 0 from by ring,
    show (30:ℝ) * (1000 - (1000 - 600/π)) / 200 = 90/π from by ring,
    show (30:ℝ) * (1100 - (1000 - 600/π)) / 200 = 15 + 90/π from by ring,
    show (30:ℝ) * ((1300 - 600/π) - (1000 - 600/π)) / 200 = 45 from by ring]

theorem cexR2 : 2 * R_val 30 = 1200 / π := by
  unfold R_val
  have hπ : π ≠ 0 := pi_ne_zero
  field_simp
  ring

theorem cexTape (hstep : (0 : ℝ) < 100) :
    tape_ct 90 30 1000 100 hstep =
      [0, roundTo2 (1200 / π * Real.sin (1 / 2)),
       roundTo2 (1200 / π * Real.sin (π / 12)),
       roundTo2 (1200 / π * Real.sin (π / 6 - 1 / 2))] := by
  unfold tape_ct
  rw [cexDs hstep]
  have hr1 : radiansOf (90 / π - 0) = 1 / 2 := by
    unfold radiansOf
    field_simp
    norm_num
  have hr2 : radiansOf (15 + 90 / π - 90 / π) = π / 12 := by
    unfold radiansOf
    ring
  have hr3 : radiansOf (45 - (15 + 90 / π)) = π / 6 - 1 / 2 := by
    unfold radiansOf
    field_simp
    ring
  simp only [List.tail_cons, List.zipWith_cons_cons, List.zipWith_nil_right,
    hr1, hr2, hr3, cexR2]

theorem cexEdmLast (hstep : (0 : ℝ) < 100) :
    (edm_ct 90 30 1000 100 hstep).getLast?.getD 0 =
      roundTo2 (1200 / π * (Real.sqrt 2 / 2)) := by
  unfold edm_ct
  rw [cexDs hstep]
  have hr : radiansOf 45 = π / 4 := by
    unfold radiansOf
    ring
  simp only [List.tail_cons, List.map_cons, List.map_nil, hr, cexR2,
    Real.sin_pi_div_four]
  rfl

/-- C4 counterexample: at `I = 90`, `Da = 30`, `PI = "10+00.00"`, interval
`100 ft`, the sum of the incremental (tape) chords differs from the final
cumulative (EDM) chord by far more than `1e-6` ft (about 7 ft), so the
claimed telescoping identity fails on the code. -/
theorem chord_sum_counterexample :
    1e-6 < |(tape_ct 90 30 1000 100 (by norm_num)).sum -
      (edm_ct 90 30 1000 100 (by norm_num)).getLast?.getD 0| := by
  rw [cexTape (by norm_num), cexEdmLast (by norm_num)]
  have hπ1 : (3.141592 : ℝ) < π := pi_gt_d6
  have hπ2 : π < 3.141593 := pi_lt_d6
  have hπ0 : (0 : ℝ) < π := pi_pos
  have hA1 : (381.9 : ℝ) < 1200 / π := by
    rw [lt_div_iff₀ hπ0]
    nlinarith
  have hA2 : (1200 : ℝ) / π < 382 := by
    rw [div_lt_iff₀ hπ0]
    nlinarith
  have hA0 : (0 : ℝ) ≤ 1200 / π := by positivity
  have hs1 : (0.46875 : ℝ) ≤ Real.sin (1 / 2) := by
    have h := Real.sin_gt_sub_cube (by norm_num : (0:ℝ) < 1/2) (by norm_num)
    norm_num at h
    linarith
  have hπ12a : (0.2617 : ℝ) < π / 12 := by linarith
  have hπ12b : π / 12 < 0.2618 := by linarith
  have hs2 : (0.257 : ℝ) ≤ Real.sin (π / 12) := by
    have h := Real.sin_gt_sub_cube (show (0:ℝ) < π/12 by positivity)
      (by linarith : π / 12 ≤ 1)
    have hsq : (π / 12) ^ 2 < 0.0686 := by nlinarith
    have hcube : (π / 12) ^ 3 < 0.018 := by nlinarith
    linarith
  have hs3 : (0 : ℝ) ≤ Real.sin (π / 6 - 1 / 2) := by
    refine Real.sin_nonneg_of_nonneg_of_le_pi (by linarith) (by linarith)
  have hsqrt2 : Real.sqrt 2 < 1.41422 := by
    nlinarith [Real.sq_sqrt (show (0:ℝ) ≤ 2 by norm_num), Real.sqrt_nonneg 2]
  have ht1 : (179.0 : ℝ) ≤ 1200 / π * Real.sin (1 / 2) := by
    have := mul_le_mul hA1.le hs1 (by norm_num) hA0
    linarith
  have ht2 : (98.1 : ℝ) ≤ 1200 / π * Real.sin (π / 12) := by
    have := mul_le_mul hA1.le hs2 (by norm_num) hA0
    linarith
  have ht3 : (0 : ℝ) ≤ 1200 / π * Real.sin (π / 6 - 1 / 2) := mul_nonneg hA0 hs3
  have hcf : 1200 / π * (Real.sqrt 2 / 2) ≤ 270.12 := by
    have h1 : Real.sqrt 2 / 2 ≤ 0.70711 := by linarith
    have h2 : (0 : ℝ) ≤ Real.sqrt 2 / 2 := by positivity
    have := mul_le_mul hA2.le h1 h2 (by norm_num)
    linarith
  have hb1 := roundTo2_bounds (1200 / π * Real.sin (1 / 2))
  have hb2 := roundTo2_bounds (1200 / π * Real.sin (π / 12))
  have hb3 := roundTo2_bounds (1200 / π * Real.sin (π / 6 - 1 / 2))
  have hbc := roundTo2_bounds (1200 / π * (Real.sqrt 2 / 2))
  rw [List.sum_cons, List.sum_cons, List.sum_cons, List.sum_cons, List.sum_nil]
  rw [abs_of_pos (by linarith)]
  linarith

end CurveApp
